import Mathlib

/-!
# Verification of the tiny-compiler pipeline

Shallow embedding of `src/tiny.js` (the primary implementation) and of the
evaluator variant in `src/unnamed/part_000`.  The pipeline is
`lex` (tokenizer) → `parse` (recursive-descent parser) → `eval` / `transpile`.

JavaScript numbers are modelled exactly on the values the claims touch:
`JSVal.num` carries an exact rational, `JSVal.nan` models `NaN`, and
`JSVal.inf s` models `±Infinity` (`s = true` for `-Infinity`).  All inputs in
the claims stay in ranges where IEEE-754 doubles are exact, so rational
arithmetic agrees with the JavaScript semantics there (signed zero is not
distinguished; no claim touches it).
-/

/-- Model of a JavaScript number: `NaN`, `±Infinity`, or an exact value. -/
inductive JSVal where
  | nan : JSVal
  | inf : Bool → JSVal
  | num : ℚ → JSVal
deriving DecidableEq, Repr

/-- JS unary negation on numbers. -/
def jneg : JSVal → JSVal
  | .nan => .nan
  | .inf s => .inf (!s)
  | .num q => .num (-q)

/-- JS `+` on numbers: `NaN` propagates, opposite infinities give `NaN`. -/
def jadd : JSVal → JSVal → JSVal
  | .nan, _ => .nan
  | _, .nan => .nan
  | .inf s, .inf t => if s = t then .inf s else .nan
  | .inf s, .num _ => .inf s
  | .num _, .inf t => .inf t
  | .num a, .num b => .num (a + b)

/-- JS `-` on numbers, via `a + (-b)`. -/
def jsub (a b : JSVal) : JSVal := jadd a (jneg b)

/-- JS `*` on numbers: `NaN` propagates, `0 * Infinity = NaN`. -/
def jmul : JSVal → JSVal → JSVal
  | .nan, _ => .nan
  | _, .nan => .nan
  | .inf s, .inf t => .inf (s != t)
  | .inf s, .num a => if a = 0 then .nan else .inf (s != decide (a < 0))
  | .num a, .inf t => if a = 0 then .nan else .inf (t != decide (a < 0))
  | .num a, .num b => .num (a * b)

/-- JS `/` on numbers: division by zero gives a signed infinity
(`0 / 0 = NaN`); a finite value over an infinity gives `0`. -/
def jdiv : JSVal → JSVal → JSVal
  | .nan, _ => .nan
  | _, .nan => .nan
  | .inf _, .inf _ => .nan
  | .inf s, .num a => .inf (s != decide (a < 0))
  | .num _, .inf _ => .num 0
  | .num a, .num b =>
    if b = 0 then (if a = 0 then .nan else .inf (decide (a < 0))) else .num (a / b)

/-!
## AST node model

`src/tiny.js` builds nodes `{ val, type }` where `type` is the symbol `Num`
or `Op`.  A number node's `val` is the JS number `parseInt(token)` (possibly
`NaN`); an operation node's `val` is the raw token string — which is
`undefined` when `consume()` runs past the end of the array, hence the
`Option String`.
-/

/-- AST node of `src/tiny.js`: `num` is a `{type: Num}` node, `op` is a
`{type: Op}` node with its operator token (`none` models `undefined`) and
its `expr` children array. -/
inductive Node where
  | num : JSVal → Node
  | op : Option String → List Node → Node

/-!
## Tokenizer

`const lex = str => str.split(' ').map(s => s.trim()).filter(s => s.length);`

`String.prototype.split(' ')` splits at every single space character
(adjacent spaces producing empty pieces), `trim` strips surrounding
whitespace, and the filter drops empty strings.  We model the split at the
character level so that everything reduces inside the kernel.
-/

/-- `str.split(' ')` on the character list: split at every space, keeping
empty pieces (so `"a  b"` gives `["a", "", "b"]` and `""` gives `[""]`). -/
def splitSpaces : List Char → List (List Char)
  | [] => [[]]
  | c :: cs =>
    let r := splitSpaces cs
    if c = ' ' then [] :: r
    else
      match r with
      | [] => [[c]]
      | h :: t => (c :: h) :: t

/-- `s.trim()`: strip leading and trailing whitespace characters. -/
def trimChars (cs : List Char) : List Char :=
  ((cs.dropWhile Char.isWhitespace).reverse.dropWhile Char.isWhitespace).reverse

/-- The tokenizer `lex` of `src/tiny.js`. -/
def lexJS (s : String) : List String :=
  ((splitSpaces s.data).map (fun cs => String.mk (trimChars cs))).filter
    (fun t => !t.isEmpty)

/-!
## `parseInt`

`parseNum` calls JavaScript's `parseInt` on the consumed token.  With no
radix argument and no `0x`/`0X` prefix, `parseInt` skips leading
whitespace, reads an optional sign and then the longest prefix of decimal
digits; if that prefix is empty the result is `NaN`.  A `0x`/`0X` prefix
switches to hexadecimal digits.  `parseInt(undefined)` coerces the argument
to the string `"undefined"` and yields `NaN`.
-/

/-- Numeric value of a decimal digit string (most significant first). -/
def natOfDigits (cs : List Char) : ℕ :=
  cs.foldl (fun n c => 10 * n + (c.toNat - 48)) 0

/-- Numeric value of a hexadecimal digit string (most significant first). -/
def natOfHexDigits (cs : List Char) : ℕ :=
  cs.foldl (fun n c =>
    16 * n + (if c.isDigit then c.toNat - 48
              else if 'a' ≤ c ∧ c ≤ 'f' then c.toNat - 87
              else c.toNat - 55)) 0

/-- Hexadecimal digit test for `parseInt`'s `0x` handling. -/
def isHexDigit (c : Char) : Bool :=
  c.isDigit || ('a' ≤ c && c ≤ 'f') || ('A' ≤ c && c ≤ 'F')

/-- The optional leading sign of `parseInt`: `-` sets the negative flag,
`+` is skipped, anything else leaves the characters untouched. -/
def jsSign : List Char → Bool × List Char
  | '-' :: rest => (true, rest)
  | '+' :: rest => (false, rest)
  | cs => (false, cs)

/-- The digit-prefix step of `parseInt`: a `0x`/`0X` prefix switches to
hexadecimal, otherwise the longest decimal-digit prefix is read; an empty
prefix means `NaN` (`none`). -/
def jsDigitsValue : List Char → Option ℕ
  | '0' :: 'x' :: rest =>
    let ds := rest.takeWhile isHexDigit
    if ds.isEmpty then none else some (natOfHexDigits ds)
  | '0' :: 'X' :: rest =>
    let ds := rest.takeWhile isHexDigit
    if ds.isEmpty then none else some (natOfHexDigits ds)
  | body =>
    let ds := body.takeWhile Char.isDigit
    if ds.isEmpty then none else some (natOfDigits ds)

/-- JavaScript `parseInt` (radix auto-detection, default 10), on the
optional string a token access can produce (`none` models `undefined`):
skip leading whitespace, read the optional sign, then the digit prefix. -/
def parseIntJS : Option String → JSVal
  | none => .nan
  | some s =>
    let sgn := jsSign (s.data.dropWhile Char.isWhitespace)
    match jsDigitsValue sgn.2 with
    | none => .nan
    | some n => .num (if sgn.1 then -(n : ℚ) else (n : ℚ))

/-!
## Parser

```javascript
const parse = tokens => {
  let c = 0;
  const peek = () => tokens[c];
  const consume = () => tokens[c++];
  const parseNum = () => ({ val: parseInt(consume()), type: Num });
  const parseOp = () => {
    const node = { val: consume(), type: Op, expr: [] };
    while (peek()) node.expr.push(parseExpr());
    return node;
  };
  const parseExpr = () => /\d/.test(peek()) ? parseNum() : parseOp();
  return parseExpr();
};
```

`tokens[c]` past the end is `undefined`; `/\d/.test(undefined)` coerces the
argument to the string `"undefined"`, which contains no digit, so the test
is `false`.  `while (peek())` runs while the current token is truthy, i.e.
exists and is a non-empty string.  The cursor is threaded explicitly; each
function returns the node(s) built together with the new cursor, packaged
with a cursor-progress proof that justifies termination of the `while`
loop (each `parseExpr` call strictly advances the cursor).
-/

/-- Truthiness of `tokens[c]`: `undefined` and `""` are falsy. -/
def jsTruthy : Option String → Bool
  | none => false
  | some s => !s.isEmpty

/-- `/\d/.test(tokens[c])`: does the token contain a decimal digit
anywhere?  (`undefined` coerces to `"undefined"`, which has none.) -/
def jsTestDigit : Option String → Bool
  | none => false
  | some s => s.data.any Char.isDigit

theorem jsTruthy_lt_length {ts : List String} {c : ℕ}
    (h : jsTruthy ts[c]? = true) : c < ts.length := by
  cases hc : ts[c]? with
  | none => rw [hc] at h; simp [jsTruthy] at h
  | some t =>
    exact (List.getElem?_eq_some_iff.mp hc).1

mutual

/-- `parseExpr` of `src/tiny.js`: dispatch on the digit test, returning the
node and the cursor after it, with a proof the cursor advanced.  When the
cursor is already past the end (`peek()` is `undefined`), the digit test
fails, `parseOp` consumes `undefined` as its `val`, and its `while` guard
`peek()` is immediately falsy, so the operand list is empty; the
out-of-range branch below writes out that (forced) behaviour directly. -/
def parseExpr (ts : List String) (c : ℕ) : {p : Node × ℕ // c < p.2} :=
  if jsTestDigit ts[c]? then
    -- parseNum: consume one token and parseInt it
    ⟨(Node.num (parseIntJS ts[c]?), c + 1), Nat.lt_succ_self c⟩
  else if h : c < ts.length then
    -- parseOp: consume the operator token, then the operand loop
    match parseOpLoop ts (c + 1) with
    | ⟨(es, c2), h2⟩ => ⟨(Node.op ts[c]? es, c2), by omega⟩
  else
    ⟨(Node.op ts[c]? [], c + 1), Nat.lt_succ_self c⟩
termination_by (ts.length - c, 0)
decreasing_by
  apply Prod.Lex.left
  omega

/-- The `while (peek()) node.expr.push(parseExpr());` loop of `parseOp`:
collect expressions while the current token is truthy. -/
def parseOpLoop (ts : List String) (c : ℕ) : {p : List Node × ℕ // c ≤ p.2} :=
  if h : jsTruthy ts[c]? = true then
    match parseExpr ts c with
    | ⟨(n, c2), h2⟩ =>
      match parseOpLoop ts c2 with
      | ⟨(rest, c3), h3⟩ => ⟨(n :: rest, c3), by omega⟩
  else
    ⟨([], c), le_refl c⟩
termination_by (ts.length - c, 1)
decreasing_by
  · apply Prod.Lex.right
    omega
  · have hlt : c < ts.length := jsTruthy_lt_length h
    apply Prod.Lex.left
    omega

end

/-- The node built by `parseExpr` at cursor `c`. -/
def parseExprN (ts : List String) (c : ℕ) : Node := (parseExpr ts c).1.1

/-- The cursor position after `parseExpr` at cursor `c`. -/
def parseExprC (ts : List String) (c : ℕ) : ℕ := (parseExpr ts c).1.2

/-- Top level `parse`: one `parseExpr` from cursor `0`. -/
def parse (ts : List String) : Node := parseExprN ts 0

/-!
### Unfolding lemmas

The parser functions are defined by well-founded recursion, so their
defining equations are exposed as conditional rewrite lemmas on the
node/cursor projections, one per branch of the source code.
-/

def parseOpLoopN (ts : List String) (c : ℕ) : List Node := (parseOpLoop ts c).1.1
def parseOpLoopC (ts : List String) (c : ℕ) : ℕ := (parseOpLoop ts c).1.2

theorem parseExprN_num (ts : List String) (c : ℕ) (h : jsTestDigit ts[c]? = true) :
    parseExprN ts c = Node.num (parseIntJS ts[c]?) := by
  unfold parseExprN
  rw [parseExpr.eq_def, if_pos h]

theorem parseExprC_num (ts : List String) (c : ℕ) (h : jsTestDigit ts[c]? = true) :
    parseExprC ts c = c + 1 := by
  unfold parseExprC
  rw [parseExpr.eq_def, if_pos h]

theorem parseExprN_op (ts : List String) (c : ℕ) (h : jsTestDigit ts[c]? = false)
    (h2 : c < ts.length) :
    parseExprN ts c = Node.op ts[c]? (parseOpLoopN ts (c + 1)) := by
  unfold parseExprN parseOpLoopN
  rw [parseExpr.eq_def, if_neg (by simp [h]), dif_pos h2]

theorem parseExprC_op (ts : List String) (c : ℕ) (h : jsTestDigit ts[c]? = false)
    (h2 : c < ts.length) :
    parseExprC ts c = parseOpLoopC ts (c + 1) := by
  unfold parseExprC parseOpLoopC
  rw [parseExpr.eq_def, if_neg (by simp [h]), dif_pos h2]

theorem parseExprN_op_none (ts : List String) (c : ℕ) (h : jsTestDigit ts[c]? = false)
    (h2 : ¬ c < ts.length) :
    parseExprN ts c = Node.op ts[c]? [] := by
  unfold parseExprN
  rw [parseExpr.eq_def, if_neg (by simp [h]), dif_neg h2]

theorem parseExprC_op_none (ts : List String) (c : ℕ) (h : jsTestDigit ts[c]? = false)
    (h2 : ¬ c < ts.length) :
    parseExprC ts c = c + 1 := by
  unfold parseExprC
  rw [parseExpr.eq_def, if_neg (by simp [h]), dif_neg h2]

theorem parseOpLoopN_cons (ts : List String) (c : ℕ) (h : jsTruthy ts[c]? = true) :
    parseOpLoopN ts c = parseExprN ts c :: parseOpLoopN ts (parseExprC ts c) := by
  unfold parseOpLoopN parseExprN parseExprC
  rw [parseOpLoop.eq_def, dif_pos h]

theorem parseOpLoopN_nil (ts : List String) (c : ℕ) (h : jsTruthy ts[c]? = false) :
    parseOpLoopN ts c = [] := by
  unfold parseOpLoopN
  rw [parseOpLoop.eq_def, dif_neg (by simp [h])]

theorem parseOpLoopC_cons (ts : List String) (c : ℕ) (h : jsTruthy ts[c]? = true) :
    parseOpLoopC ts c = parseOpLoopC ts (parseExprC ts c) := by
  unfold parseOpLoopC parseExprC
  rw [parseOpLoop.eq_def, dif_pos h]

theorem parseOpLoopC_nil (ts : List String) (c : ℕ) (h : jsTruthy ts[c]? = false) :
    parseOpLoopC ts c = c := by
  unfold parseOpLoopC
  rw [parseOpLoop.eq_def, dif_neg (by simp [h])]

/-!
## Evaluator of `src/tiny.js`

```javascript
const eval = ast => {
  const opAcMap = {
    sum: args => args.reduce((a, b) => a + b, 0),
    sub: args => args.reduce((a, b) => a - b),
    div: args => args.reduce((a, b) => a / b),
    mul: args => args.reduce((a, b) => a * b, 1)
  };
  if (ast.type === Num) return ast.val;
  return opAcMap[ast.val](ast.expr.map(eval));
};
```

`Array.prototype.reduce` with an initial value is a left fold from that
value; without one it starts from the first element and THROWS a
`TypeError` on an empty array.  `opAcMap[ast.val]` is `undefined` for any
`val` outside the four keys (including `undefined` itself), so the call
throws.  Thrown errors are modelled by `none`.
-/

mutual

/-- The `eval` of `src/tiny.js`.  `none` models a thrown `TypeError`
(unseeded `reduce` on `[]`, or an operator symbol outside the map). -/
def tinyEval : Node → Option JSVal
  | .num v => some v
  | .op v es =>
    match tinyEvalArgs es with
    | none => none
    | some args =>
      match v with
      | some "sum" => some (args.foldl jadd (.num 0))
      | some "sub" =>
        match args with
        | [] => none
        | a :: rest => some (rest.foldl jsub a)
      | some "div" =>
        match args with
        | [] => none
        | a :: rest => some (rest.foldl jdiv a)
      | some "mul" => some (args.foldl jmul (.num 1))
      | _ => none

/-- `ast.expr.map(eval)`, propagating a thrown error from any child. -/
def tinyEvalArgs : List Node → Option (List JSVal)
  | [] => some []
  | e :: es =>
    match tinyEval e, tinyEvalArgs es with
    | some a, some as => some (a :: as)
    | _, _ => none

end

/-!
## Evaluator of `src/unnamed/part_000`

```javascript
const eval = ast => {
  const reduce = (op, args, init = 0) => args.reduce(op, init);
  const opAcMap = {
    'sum': args => reduce((a, b) => b + a, args),
    'sub': args => reduce((a, b) => b - a, args),
    'div': args => reduce((a, b) => b / a, args, 1),
    'mul': args => reduce((a, b) => b * a, args, 1)
  };
  if (ast.type === Num) return ast.val;
  return opAcMap[ast.val](ast.expr.map(e => eval(e)));
};
```

Every fold is seeded (`sum`/`sub` default to `0`, `div`/`mul` pass `1`) and
the operand order inside each step is flipped: the callback receives
`(accumulator, next)` and computes `next OP accumulator`.
-/

mutual

/-- The `eval` of `src/unnamed/part_000`: seeded folds with flipped
operand order.  `none` models the `TypeError` thrown when `opAcMap[val]`
is `undefined`. -/
def part0Eval : Node → Option JSVal
  | .num v => some v
  | .op v es =>
    match part0EvalArgs es with
    | none => none
    | some args =>
      match v with
      | some "sum" => some (args.foldl (fun a b => jadd b a) (.num 0))
      | some "sub" => some (args.foldl (fun a b => jsub b a) (.num 0))
      | some "div" => some (args.foldl (fun a b => jdiv b a) (.num 1))
      | some "mul" => some (args.foldl (fun a b => jmul b a) (.num 1))
      | _ => none

/-- `ast.expr.map(e => eval(e))` of `src/unnamed/part_000`. -/
def part0EvalArgs : List Node → Option (List JSVal)
  | [] => some []
  | e :: es =>
    match part0Eval e, part0EvalArgs es with
    | some a, some as => some (a :: as)
    | _, _ => none

end

/-!
## Code generator of `src/tiny.js`

```javascript
const transpile = ast => {
  const opMap = { sum: '+', mul: '*', sub: '-', div: '/' };
  const transpileNum = ast => ast.val;
  const transpileOp = ast => `(${ast.expr.map(transpile).join(' ' + opMap[ast.val] + ' ')})`;
  const transpile = ast => ast.type === Num ? transpileNum(ast) : transpileOp(ast);
  return transpile(ast);
};
```

`transpileNum` returns the numeric `val`; the template literal / `join`
coerce it to its JavaScript string form (`"NaN"` for `NaN`, plain decimal
for integers).  `opMap[val]` is `undefined` for an unknown operator, which
string concatenation renders as `"undefined"`.
-/

/-- Decimal digits of `n`, most significant first (fuel-structured so it
reduces in the kernel; the fuel `n + 1` strictly bounds the number of
divisions by 10). -/
def natToDigitsGo : ℕ → ℕ → List Char
  | 0, _ => []
  | f + 1, n =>
    if n < 10 then [Char.ofNat (48 + n)]
    else natToDigitsGo f (n / 10) ++ [Char.ofNat (48 + n % 10)]

/-- Decimal digit string of a natural number. -/
def natToDigits (n : ℕ) : List Char := natToDigitsGo (n + 1) n

/-- JavaScript number-to-string coercion, on the values this program can
produce: `NaN`, `±Infinity` and integers print as in JS.  (Non-integer
rationals never appear in a parsed tree — `parseInt` yields an integer or
`NaN` — so their rendering here is irrelevant to the pipeline.) -/
def jsValToString : JSVal → String
  | .nan => "NaN"
  | .inf s => if s then "-Infinity" else "Infinity"
  | .num q =>
    if q.den = 1 then
      (if q.num < 0 then "-" ++ String.mk (natToDigits q.num.natAbs)
       else String.mk (natToDigits q.num.natAbs))
    else toString q

/-- `opMap[val]` as the string the `join` separator ends up containing:
the surface symbol for the four known operators, otherwise the string
`"undefined"` (string coercion of the `undefined` lookup). -/
def opMapJS : Option String → String
  | some "sum" => "+"
  | some "mul" => "*"
  | some "sub" => "-"
  | some "div" => "/"
  | _ => "undefined"

/-- `Array.prototype.join(sep)`: concatenate, interposing the separator
(empty array gives the empty string). -/
def joinSep (sep : String) : List String → String
  | [] => ""
  | [a] => a
  | a :: rest => a ++ sep ++ joinSep sep rest

mutual

/-- The `transpile` of `src/tiny.js`. -/
def transpile : Node → String
  | .num v => jsValToString v
  | .op v es =>
    "(" ++ joinSep (" " ++ opMapJS v ++ " ") (transpileArgs es) ++ ")"

/-- `ast.expr.map(transpile)`. -/
def transpileArgs : List Node → List String
  | [] => []
  | e :: es => transpile e :: transpileArgs es

end

/-!
## Parser cursor facts

The parser cursor is threaded functionally; consuming is modelled by the
`c + 1` steps inside `parseExpr`/`parseOpLoop`, so monotonicity is carried
by the subtype and the upper bound follows by strong induction on the
remaining tokens.
-/

/-- The cursor strictly advances across any `parseExpr` call. -/
theorem parseExprC_gt (ts : List String) (c : ℕ) : c < parseExprC ts c :=
  (parseExpr ts c).2

/-- The operand loop never moves the cursor backwards. -/
theorem parseOpLoopC_ge (ts : List String) (c : ℕ) : c ≤ parseOpLoopC ts c :=
  (parseOpLoop ts c).2

/-- Strong-induction workhorse: starting inside the token array, the final
cursor never passes the end of the array. -/
theorem parse_cursor_le (ts : List String) : ∀ k c, ts.length - c = k →
    (c < ts.length → parseExprC ts c ≤ ts.length) ∧
    (c ≤ ts.length → parseOpLoopC ts c ≤ ts.length) := by
  intro k
  induction k using Nat.strong_induction_on with
  | _ k ih =>
    intro c hk
    have hexpr : c < ts.length → parseExprC ts c ≤ ts.length := by
      intro hc
      by_cases hd : jsTestDigit ts[c]? = true
      · rw [parseExprC_num ts c hd]
        omega
      · rw [parseExprC_op ts c (by simpa using hd) hc]
        exact (ih (ts.length - (c + 1)) (by omega) (c + 1) rfl).2 (by omega)
    refine ⟨hexpr, ?_⟩
    intro hc
    by_cases ht : jsTruthy ts[c]? = true
    · have hcl : c < ts.length := jsTruthy_lt_length ht
      rw [parseOpLoopC_cons ts c ht]
      have h1 : parseExprC ts c ≤ ts.length := hexpr hcl
      have h2 : c < parseExprC ts c := parseExprC_gt ts c
      exact (ih (ts.length - parseExprC ts c) (by omega) _ rfl).2 (by omega)
    · rw [parseOpLoopC_nil ts c (by simpa using ht)]
      exact hc

/-- From any in-bounds start the parser finishes within the array. -/
theorem parseExprC_le (ts : List String) (c : ℕ) (hc : c < ts.length) :
    parseExprC ts c ≤ ts.length :=
  (parse_cursor_le ts (ts.length - c) c rfl).1 hc

/-!
## Claim theorems: concrete pipeline behaviour
-/

/-- Is this node a `{type: Num}` node (i.e. did `parseExpr` dispatch to
`parseNum` to build it)? -/
def isNumNode : Node → Bool
  | .num _ => true
  | .op _ _ => false

/-- Modelled from the spec: the Sub reduction of §4.3 in the spec's own
words — fold the evaluated operand values with subtraction where each step
computes `next - accumulator` (with the sum-style seed `0` its example
`[2,1,3,4]` describes, as in `src/unnamed/part_000`). -/
def specSubFold (args : List JSVal) : JSVal :=
  args.foldl (fun a b => jsub b a) (.num 0)

/-- C1: `"mul 3 sub 2 sum 1 3 4"` tokenizes and parses to the tree
`mul(3, sub(2, sum(1,3,4)))` — each operator greedily consuming every
following expression — and the tiny.js evaluator yields `-18` on it. -/
theorem claim_c1_pipeline :
    parse (lexJS "mul 3 sub 2 sum 1 3 4") =
      Node.op (some "mul") [Node.num (.num 3),
        Node.op (some "sub") [Node.num (.num 2),
          Node.op (some "sum") [Node.num (.num 1), Node.num (.num 3), Node.num (.num 4)]]] ∧
    tinyEval (parse (lexJS "mul 3 sub 2 sum 1 3 4")) = some (.num (-18)) := by
  have hlex : lexJS "mul 3 sub 2 sum 1 3 4" = ["mul", "3", "sub", "2", "sum", "1", "3", "4"] := by
    decide
  have htree : parse (lexJS "mul 3 sub 2 sum 1 3 4") =
      Node.op (some "mul") [Node.num (.num 3),
        Node.op (some "sub") [Node.num (.num 2),
          Node.op (some "sum") [Node.num (.num 1), Node.num (.num 3), Node.num (.num 4)]]] := by
    rw [parse, hlex]
    simp +decide [parseExprN_num, parseExprC_num, parseExprN_op, parseExprC_op,
      parseOpLoopN_cons, parseOpLoopN_nil, parseOpLoopC_cons, parseOpLoopC_nil]
  refine ⟨htree, ?_⟩
  rw [htree]
  simp [tinyEval, tinyEvalArgs, jadd, jsub, jmul, jneg]
  norm_num

/-- C8: `"div 10 2"` evaluates to `5` under the tiny.js evaluator, whose
`div` folds left-to-right from the first operand with no seed. -/
theorem claim_c8_div_10_2 :
    tinyEval (parse (lexJS "div 10 2")) = some (.num 5) := by
  have hlex : lexJS "div 10 2" = ["div", "10", "2"] := by decide
  have htree : parse (lexJS "div 10 2") =
      Node.op (some "div") [Node.num (.num 10), Node.num (.num 2)] := by
    rw [parse, hlex]
    simp +decide [parseExprN_num, parseExprC_num, parseExprN_op, parseExprC_op,
      parseOpLoopN_cons, parseOpLoopN_nil, parseOpLoopC_cons, parseOpLoopC_nil]
  rw [htree]
  simp [tinyEval, tinyEvalArgs, jdiv]
  norm_num

/-- C10: on an operation node with an empty operand array — exactly what
`parse` returns for a lone operator token — the seeded folds return their
seed (`0` for `sum`, `1` for `mul`), while the unseeded `sub`/`div`
reduces throw (`none`). -/
theorem claim_c10_empty_operands :
    parse (lexJS "sum") = Node.op (some "sum") [] ∧
    parse (lexJS "sub") = Node.op (some "sub") [] ∧
    parse (lexJS "div") = Node.op (some "div") [] ∧
    parse (lexJS "mul") = Node.op (some "mul") [] ∧
    tinyEval (Node.op (some "sum") []) = some (.num 0) ∧
    tinyEval (Node.op (some "mul") []) = some (.num 1) ∧
    tinyEval (Node.op (some "sub") []) = none ∧
    tinyEval (Node.op (some "div") []) = none := by
  refine ⟨?_, ?_, ?_, ?_, rfl, rfl, rfl, rfl⟩
  · rw [parse, show lexJS "sum" = ["sum"] from by decide,
      parseExprN_op ["sum"] 0 (by decide) (by decide), parseOpLoopN_nil _ _ (by decide)]
    rfl
  · rw [parse, show lexJS "sub" = ["sub"] from by decide,
      parseExprN_op ["sub"] 0 (by decide) (by decide), parseOpLoopN_nil _ _ (by decide)]
    rfl
  · rw [parse, show lexJS "div" = ["div"] from by decide,
      parseExprN_op ["div"] 0 (by decide) (by decide), parseOpLoopN_nil _ _ (by decide)]
    rfl
  · rw [parse, show lexJS "mul" = ["mul"] from by decide,
      parseExprN_op ["mul"] 0 (by decide) (by decide), parseOpLoopN_nil _ _ (by decide)]
    rfl

/-- C5 counterexample: `parse` applied to the empty token sequence does
not fail — there is no error path in the source — it returns the
operation node `{ val: undefined, type: Op, expr: [] }`. -/
theorem claim_c5_counterexample :
    parse ([] : List String) = Node.op none [] := by
  rw [parse]
  rw [parseExprN_op_none [] 0 (by decide) (by decide)]
  rfl

/-- C5 (amended): on the empty input string `tokenize` yields the empty
token sequence, and `parse` on that sequence does not raise a
`ParseError`: it returns an `OperationNode` with `undefined` operator
symbol and no operands. -/
theorem claim_c5_empty_input :
    lexJS "" = [] ∧ parse (lexJS "") = Node.op none [] := by
  have h : lexJS "" = [] := by decide
  refine ⟨h, ?_⟩
  rw [h, parse, parseExprN_op_none [] 0 (by decide) (by decide)]
  rfl

/-- C3 counterexample: on the token `"x2"` — not all of whose characters
are digits — `parseExpr` still dispatches to `parseNum` (the source tests
`/\d/`, i.e. contains-a-digit, not all-digits), producing a number node
(whose value is `NaN`). -/
theorem claim_c3_counterexample :
    isNumNode (parseExprN ["x2"] 0) = true ∧
    ("x2".data.all Char.isDigit) = false ∧
    parseExprN ["x2"] 0 = Node.num JSVal.nan := by
  refine ⟨?_, by decide, ?_⟩
  · rw [parseExprN_num ["x2"] 0 (by decide)]
    rfl
  · rw [parseExprN_num ["x2"] 0 (by decide)]
    rfl

/-- C3 (amended): `parseExpr` dispatches to `parseNum` exactly when the
current token exists and contains at least one digit character anywhere
(the unanchored `/\d/` test); otherwise it dispatches to `parseOp`. -/
theorem claim_c3_dispatch (ts : List String) (c : ℕ) :
    isNumNode (parseExprN ts c) = jsTestDigit ts[c]? := by
  cases h : jsTestDigit ts[c]? with
  | true => rw [parseExprN_num ts c h]; rfl
  | false =>
    by_cases h2 : c < ts.length
    · rw [parseExprN_op ts c h h2]; rfl
    · rw [parseExprN_op_none ts c h h2]; rfl

/-- C4 counterexample: the tiny.js evaluator's `sub` is
`args.reduce((a, b) => a - b)` — each step computes
`accumulator - next`, unseeded — so on operand values `[2, 1]` it returns
`2 - 1 = 1`, whereas the claimed `next - accumulator` fold (spec §4.3,
realized only in `src/unnamed/part_000`) returns `-1`. -/
theorem claim_c4_counterexample :
    tinyEval (Node.op (some "sub") [Node.num (.num 2), Node.num (.num 1)]) =
      some (.num 1) ∧
    specSubFold [JSVal.num 2, JSVal.num 1] = JSVal.num (-1) ∧
    JSVal.num (1 : ℚ) ≠ JSVal.num (-1 : ℚ) := by
  refine ⟨?_, ?_, by norm_num⟩
  · simp [tinyEval, tinyEvalArgs, jsub, jadd, jneg]
    norm_num
  · simp [specSubFold, jsub, jadd, jneg]
    norm_num

/-- C4 (amended): the `next - accumulator` fold direction for `sub` holds
in the `src/unnamed/part_000` evaluator (seeded with `0`); the primary
tiny.js evaluator instead computes `accumulator - next` at each step,
folding unseeded from the first operand value. -/
theorem claim_c4_sub_fold_directions :
    (∀ es args, part0EvalArgs es = some args →
      part0Eval (Node.op (some "sub") es) =
        some (args.foldl (fun a b => jsub b a) (JSVal.num 0))) ∧
    (∀ es a args, tinyEvalArgs es = some (a :: args) →
      tinyEval (Node.op (some "sub") es) = some (args.foldl jsub a)) := by
  constructor
  · intro es args h
    simp [part0Eval, h]
  · intro es a args h
    simp [tinyEval, h]

/-- Witness for C4 (amended) at the children `[2, 1]`: both folds applied
at a concrete operand list. -/
theorem claim_c4_sub_fold_directions_witness :
    part0Eval (Node.op (some "sub") [Node.num (.num 2), Node.num (.num 1)]) =
      some ([JSVal.num 2, JSVal.num 1].foldl (fun a b => jsub b a) (JSVal.num 0)) ∧
    tinyEval (Node.op (some "sub") [Node.num (.num 2), Node.num (.num 1)]) =
      some ([JSVal.num 1].foldl jsub (JSVal.num 2)) :=
  ⟨claim_c4_sub_fold_directions.1 [Node.num (.num 2), Node.num (.num 1)]
      [JSVal.num 2, JSVal.num 1] rfl,
    claim_c4_sub_fold_directions.2 [Node.num (.num 2), Node.num (.num 1)]
      (JSVal.num 2) [JSVal.num 1] rfl⟩

/-- C7 counterexample: on the empty token sequence the single top-level
`parseExpr` still executes one `consume()` (of the absent token, which
`tokens[c++]` happily performs), leaving the cursor at `1` — one
consumption step, which exceeds the sequence length `0`. -/
theorem claim_c7_counterexample :
    parseExprC ([] : List String) 0 = 1 ∧
    ¬ parseExprC ([] : List String) 0 ≤ ([] : List String).length := by
  have h : parseExprC ([] : List String) 0 = 1 := by
    rw [parseExprC_op_none [] 0 (by decide) (by decide)]
  exact ⟨h, by simp [h]⟩

/-- C7 (amended): the cursor is monotone — every `parseExpr` call strictly
increases it and nothing ever moves it backwards — so `parse` terminates;
from any start inside the token sequence the final cursor stays within the
length, i.e. a parse of a nonempty sequence performs at most `length`
consumption steps (the empty sequence incurs exactly one probe of the
missing token). -/
theorem claim_c7_cursor_monotone (ts : List String) (c : ℕ) :
    c < parseExprC ts c ∧ (c < ts.length → parseExprC ts c ≤ ts.length) :=
  ⟨parseExprC_gt ts c, fun hc => parseExprC_le ts c hc⟩

/-- Witness for C7 (amended) on `["div", "10", "2"]` from cursor `0`. -/
theorem claim_c7_cursor_monotone_witness :
    0 < parseExprC ["div", "10", "2"] 0 ∧ parseExprC ["div", "10", "2"] 0 ≤ 3 :=
  ⟨(claim_c7_cursor_monotone ["div", "10", "2"] 0).1,
   (claim_c7_cursor_monotone ["div", "10", "2"] 0).2 (by decide)⟩

/-- C9: `parse` is a total function into `Node` — no error path exists.
A token containing a digit anywhere is consumed by `parseNum`, whose value
is `parseInt`'s integer-prefix conversion (so `parse ["x2"]` is a number
node carrying `NaN`); any digit-free token is consumed by `parseOp` as the
operator of an operation node regardless of membership in
`{sum, sub, div, mul}`; and the empty token sequence yields an operation
node with `undefined` operator symbol and an empty operand list. -/
theorem claim_c9_parse_total :
    (∀ (ts : List String) (c : ℕ) t, ts[c]? = some t →
      t.data.any Char.isDigit = true →
      parseExprN ts c = Node.num (parseIntJS (some t)) ∧ parseExprC ts c = c + 1) ∧
    parse ["x2"] = Node.num JSVal.nan ∧
    (∀ (ts : List String) (c : ℕ) t, ts[c]? = some t →
      t.data.any Char.isDigit = false →
      parseExprN ts c = Node.op (some t) (parseOpLoopN ts (c + 1))) ∧
    parse ([] : List String) = Node.op none [] := by
  refine ⟨?_, ?_, ?_, ?_⟩
  · intro ts c t h hd
    have h1 : jsTestDigit ts[c]? = true := by rw [h]; simpa [jsTestDigit] using hd
    exact ⟨by rw [parseExprN_num ts c h1, h], parseExprC_num ts c h1⟩
  · rw [parse, parseExprN_num ["x2"] 0 (by decide)]
    rfl
  · intro ts c t h hd
    have h1 : jsTestDigit ts[c]? = false := by rw [h]; simp [jsTestDigit, hd]
    have h2 : c < ts.length := (List.getElem?_eq_some_iff.mp h).1
    rw [parseExprN_op ts c h1 h2, h]
  · rw [parse, parseExprN_op_none [] 0 (by decide) (by decide)]
    rfl

/-- Witness for C9 at the digit-bearing token `"7"` and the digit-free
non-operator token `"foo"`. -/
theorem claim_c9_parse_total_witness :
    (["7"] : List String)[0]? = some "7" ∧ "7".data.any Char.isDigit = true ∧
    parseExprN ["7"] 0 = Node.num (parseIntJS (some "7")) ∧
    (["foo"] : List String)[0]? = some "foo" ∧ "foo".data.any Char.isDigit = false ∧
    parseExprN ["foo"] 0 = Node.op (some "foo") (parseOpLoopN ["foo"] 1) :=
  ⟨by decide, by decide,
   (claim_c9_parse_total.1 ["7"] 0 "7" (by decide) (by decide)).1,
   by decide, by decide,
   claim_c9_parse_total.2.2.1 ["foo"] 0 "foo" (by decide) (by decide)⟩

/-- The four operator words of the grammar. -/
def opSet : List String := ["sum", "sub", "div", "mul"]

/-- Every character of the token is a decimal digit. -/
def allDigits (t : String) : Bool := t.data.all Char.isDigit

inductive PExpr : List String → Prop where
  | num (t : String) : t.data ≠ [] → allDigits t = true → PExpr [t]
  | op (t : String) (tss : List (List String)) :
      t ∈ opSet → tss ≠ [] → (∀ us ∈ tss, PExpr us) → PExpr (t :: tss.flatten)

def ClassTok (t : String) : Prop :=
  t ∈ opSet ∨ (t.data ≠ [] ∧ allDigits t = true)

inductive Good : Node → Prop where
  | num (n : ℕ) : Good (.num (.num (n : ℚ)))
  | op (v : String) (es : List Node) : v ∈ opSet → es ≠ [] →
      (∀ e ∈ es, Good e) → Good (.op (some v) es)

inductive OpsNe : Node → Prop where
  | num (v : JSVal) : OpsNe (.num v)
  | op (v : Option String) (es : List Node) : es ≠ [] →
      (∀ e ∈ es, OpsNe e) → OpsNe (.op v es)

theorem Good.opsNe {t : Node} (h : Good t) : OpsNe t := by
  induction h with
  | num n => exact OpsNe.num _
  | op v es hv hne hall ih => exact OpsNe.op _ _ hne ih

theorem isDigit_ne {c : Char} (hc : c.isDigit = true) (d : Char)
    (hd : d.isDigit = false) : c ≠ d := by
  intro he
  subst he
  rw [hc] at hd
  cases hd

theorem opSet_not_digit {t : String} (h : t ∈ opSet) :
    jsTestDigit (some t) = false := by
  fin_cases h <;> decide

theorem opSet_truthy {t : String} (h : t ∈ opSet) :
    jsTruthy (some t) = true := by
  fin_cases h <;> decide

theorem data_ne_nil_isEmpty {t : String} (hne : t.data ≠ []) :
    t.isEmpty = false := by
  rw [Bool.eq_false_iff]
  intro he
  exact hne (by rw [(String.isEmpty_iff t).mp he])

theorem allDigits_testDigit {t : String} (hne : t.data ≠ [])
    (hd : allDigits t = true) : jsTestDigit (some t) = true := by
  simp only [jsTestDigit, List.any_eq_true]
  simp only [allDigits, List.all_eq_true] at hd
  cases hcs : t.data with
  | nil => exact absurd hcs hne
  | cons c cs =>
    exact ⟨c, by simp [hcs], hd c (by simp [hcs])⟩

theorem classTok_truthy {t : String} (h : ClassTok t) :
    jsTruthy (some t) = true := by
  rcases h with h | ⟨hne, _⟩
  · exact opSet_truthy h
  · simp only [jsTruthy, data_ne_nil_isEmpty hne]
    rfl

theorem jsSign_digit {c : Char} (cs : List Char) (hc : c.isDigit = true) :
    jsSign (c :: cs) = (false, c :: cs) := by
  have h1 := isDigit_ne hc '-' (by decide)
  have h2 := isDigit_ne hc '+' (by decide)
  unfold jsSign
  split
  · next heq => rw [List.cons.injEq] at heq; exact absurd heq.1 h1
  · next heq => rw [List.cons.injEq] at heq; exact absurd heq.1 h2
  · rfl

theorem jsDigitsValue_allDigits {cs : List Char} (hne : cs ≠ [])
    (hd : ∀ c ∈ cs, c.isDigit = true) :
    jsDigitsValue cs = some (natOfDigits cs) := by
  have htake : cs.takeWhile Char.isDigit = cs := List.takeWhile_eq_self_iff.mpr hd
  unfold jsDigitsValue
  split
  · have hx : 'x'.isDigit = true := hd 'x' (by simp)
    cases hx
  · have hx : 'X'.isDigit = true := hd 'X' (by simp)
    cases hx
  · simp only [htake]
    rw [if_neg (by simp [List.isEmpty_iff, hne])]

/-- On a nonempty all-digit token, `parseInt` returns exactly its decimal
value, a natural number. -/
theorem parseIntJS_allDigits {t : String} (hne : t.data ≠ [])
    (hd : allDigits t = true) :
    parseIntJS (some t) = .num ((natOfDigits t.data : ℕ) : ℚ) := by
  simp only [allDigits, List.all_eq_true] at hd
  cases hcs : t.data with
  | nil => exact absurd hcs hne
  | cons c cs =>
    have hc : c.isDigit = true := hd c (by simp [hcs])
    have hcw : c.isWhitespace = false := by
      simp [Char.isWhitespace, isDigit_ne hc ' ' (by decide),
        isDigit_ne hc '\t' (by decide), isDigit_ne hc '\r' (by decide),
        isDigit_ne hc '\n' (by decide)]
    simp only [parseIntJS, hcs, List.dropWhile_cons, hcw, Bool.false_eq_true,
      if_false, jsSign_digit cs hc]
    rw [jsDigitsValue_allDigits (by simp) (by rw [← hcs]; exact hd)]

/-- Workhorse: on token sequences whose tokens are all grammar tokens and
whose last token is a numeral, the parser from any in-bounds cursor
produces a `Good` tree, and the operand loop produces `Good` operands —
nonempty whenever a token remains. -/
theorem parse_good (ts : List String)
    (hcl : ∀ t ∈ ts, ClassTok t)
    (hlast : ∀ t, ts.getLast? = some t → t.data ≠ [] ∧ allDigits t = true) :
    ∀ k c, ts.length - c = k →
      (c < ts.length → Good (parseExprN ts c)) ∧
      (∀ e ∈ parseOpLoopN ts c, Good e) ∧
      (c < ts.length → parseOpLoopN ts c ≠ []) := by
  intro k
  induction k using Nat.strong_induction_on with
  | _ k ih =>
    intro c hk
    have hexpr : c < ts.length → Good (parseExprN ts c) := by
      intro hc
      have hct : ClassTok ts[c] := hcl _ (List.getElem_mem hc)
      have hsome : ts[c]? = some ts[c] := List.getElem?_eq_some_iff.mpr ⟨hc, rfl⟩
      by_cases hd : jsTestDigit ts[c]? = true
      · rw [parseExprN_num ts c hd, hsome]
        have hdig : ts[c].data ≠ [] ∧ allDigits ts[c] = true := by
          rcases hct with hop | hdig
          · rw [hsome, opSet_not_digit hop] at hd
            cases hd
          · exact hdig
        rw [parseIntJS_allDigits hdig.1 hdig.2]
        exact Good.num _
      · have hd' : jsTestDigit ts[c]? = false := by simpa using hd
        have hop : ts[c] ∈ opSet := by
          rcases hct with hop | hdig
          · exact hop
          · rw [hsome, allDigits_testDigit hdig.1 hdig.2] at hd'
            cases hd'
        rw [parseExprN_op ts c hd' hc, hsome]
        have hclast : c ≠ ts.length - 1 := by
          intro he
          have hl : ts.getLast? = some ts[c] := by
            rw [List.getLast?_eq_getElem?, ← he]
            exact hsome
          have hdig := hlast _ hl
          rw [hsome, allDigits_testDigit hdig.1 hdig.2] at hd'
          cases hd'
        have hc1 : c + 1 < ts.length := by omega
        have hloop := ih (ts.length - (c + 1)) (by omega) (c + 1) rfl
        exact Good.op _ _ hop (hloop.2.2 hc1) hloop.2.1
    refine ⟨hexpr, ?_, ?_⟩
    · by_cases ht : jsTruthy ts[c]? = true
      · have hcl2 : c < ts.length := jsTruthy_lt_length ht
        rw [parseOpLoopN_cons ts c ht]
        intro e he
        rcases List.mem_cons.mp he with rfl | hmem
        · exact hexpr hcl2
        · have hcc := parseExprC_gt ts c
          exact (ih (ts.length - parseExprC ts c) (by omega) _ rfl).2.1 e hmem
      · rw [parseOpLoopN_nil ts c (by simpa using ht)]
        intro e he
        cases he
    · intro hc
      have hsome : ts[c]? = some ts[c] := List.getElem?_eq_some_iff.mpr ⟨hc, rfl⟩
      have ht : jsTruthy ts[c]? = true := by
        rw [hsome]
        exact classTok_truthy (hcl _ (List.getElem_mem hc))
      rw [parseOpLoopN_cons ts c ht]
      exact List.cons_ne_nil _ _

theorem PExpr.classTok {ts : List String} (h : PExpr ts) : ∀ t ∈ ts, ClassTok t := by
  induction h with
  | num t hne hd =>
    intro t' ht'
    rcases List.mem_singleton.mp ht' with rfl
    exact Or.inr ⟨hne, hd⟩
  | op t tss hop hne hall ih =>
    intro t' ht'
    rcases List.mem_cons.mp ht' with rfl | hmem
    · exact Or.inl hop
    · rcases List.mem_flatten.mp hmem with ⟨us, hus, ht''⟩
      exact ih us hus t' ht''

theorem PExpr.concat {ts : List String} (h : PExpr ts) :
    ∃ us t, ts = us ++ [t] ∧ t.data ≠ [] ∧ allDigits t = true := by
  induction h with
  | num t hne hd => exact ⟨[], t, rfl, hne, hd⟩
  | op t tss hop hne hall ih =>
    obtain ⟨us, t', heq, hne', hd'⟩ := ih _ (List.getLast_mem hne)
    refine ⟨t :: (tss.dropLast.flatten ++ us), t', ?_, hne', hd'⟩
    conv_lhs => rw [← List.dropLast_append_getLast hne]
    rw [List.flatten_append]
    simp [heq]

/-- A well-formed program parses to a `Good` tree. -/
theorem pexpr_good {ts : List String} (h : PExpr ts) : Good (parse ts) := by
  obtain ⟨us, t, heq, hne, hd⟩ := PExpr.concat h
  have hlen : 0 < ts.length := by
    rw [heq]
    simp
  have hlast : ∀ t', ts.getLast? = some t' → t'.data ≠ [] ∧ allDigits t' = true := by
    intro t' h'
    rw [heq, List.getLast?_concat] at h'
    rcases Option.some.inj h' with rfl
    exact ⟨hne, hd⟩
  exact (parse_good ts (PExpr.classTok h) hlast (ts.length - 0) 0 rfl).1 hlen

/-- C6 counterexample: the token sequence `["mul"]` parses "successfully"
(the parser has no failure path and completes normally) yet the returned
tree is an operation node with an empty operand sequence. -/
theorem claim_c6_counterexample :
    parse ["mul"] = Node.op (some "mul") [] := by
  rw [parse, parseExprN_op ["mul"] 0 (by decide) (by decide),
    parseOpLoopN_nil _ _ (by decide)]
  rfl

/-- C6 (amended): parsing completes on every token sequence; on every
well-formed program (token sequence derivable from the grammar
`expr := num | op expr+`, in which each operator is followed by at least
one expression) every operation node of the returned tree has a nonempty
operand sequence.  A trailing operator token, which the grammar cannot
produce, yields an operation node with an empty operand list. -/
theorem claim_c6_nonempty_operands (ts : List String) (h : PExpr ts) :
    OpsNe (parse ts) :=
  (pexpr_good h).opsNe

/-- Witness for C6 (amended) on the well-formed program `["sum", "1"]`. -/
theorem claim_c6_nonempty_operands_witness :
    OpsNe (parse ["sum", "1"]) := by
  have hp : PExpr ["sum", "1"] := by
    have h1 : PExpr ["1"] := PExpr.num "1" (by decide) (by decide)
    exact PExpr.op "sum" [["1"]] (by decide) (by simp)
      (fun us hus => by rw [List.mem_singleton.mp hus]; exact h1)
  exact claim_c6_nonempty_operands ["sum", "1"] hp

-- digit rendering facts
theorem char_digit_toNat {n : ℕ} (h : n < 10) :
    (Char.ofNat (48 + n)).toNat = 48 + n := by
  interval_cases n <;> decide

theorem char_digit_isDigit {n : ℕ} (h : n < 10) :
    (Char.ofNat (48 + n)).isDigit = true := by
  interval_cases n <;> decide

theorem natToDigitsGo_digits :
    ∀ f n, n < f → ∀ c ∈ natToDigitsGo f n, c.isDigit = true := by
  intro f
  induction f with
  | zero => omega
  | succ f ih =>
    intro n hn c hc
    rw [natToDigitsGo] at hc
    by_cases h10 : n < 10
    · rw [if_pos h10] at hc
      rcases List.mem_singleton.mp hc with rfl
      exact char_digit_isDigit h10
    · rw [if_neg h10] at hc
      rcases List.mem_append.mp hc with hm | hm
      · exact ih (n / 10) (by omega) c hm
      · rcases List.mem_singleton.mp hm with rfl
        exact char_digit_isDigit (Nat.mod_lt _ (by omega))

theorem natToDigitsGo_ne_nil (f n : ℕ) (h : n < f) :
    natToDigitsGo f n ≠ [] := by
  cases f with
  | zero => omega
  | succ f =>
    rw [natToDigitsGo]
    by_cases h10 : n < 10
    · rw [if_pos h10]
      exact List.cons_ne_nil _ _
    · rw [if_neg h10]
      simp

theorem natToDigitsGo_value :
    ∀ f n, n < f → natOfDigits (natToDigitsGo f n) = n := by
  intro f
  induction f with
  | zero => omega
  | succ f ih =>
    intro n hn
    rw [natToDigitsGo]
    by_cases h10 : n < 10
    · rw [if_pos h10]
      simp only [natOfDigits, List.foldl_cons, List.foldl_nil]
      rw [char_digit_toNat h10]
      omega
    · rw [if_neg h10]
      simp only [natOfDigits, List.foldl_append, List.foldl_cons, List.foldl_nil]
      have hv := ih (n / 10) (by omega)
      simp only [natOfDigits] at hv
      rw [hv, char_digit_toNat (Nat.mod_lt _ (by omega))]
      omega

theorem natToDigits_digits (n : ℕ) : ∀ c ∈ natToDigits n, c.isDigit = true :=
  natToDigitsGo_digits (n + 1) n (by omega)

theorem natToDigits_ne_nil (n : ℕ) : natToDigits n ≠ [] :=
  natToDigitsGo_ne_nil (n + 1) n (by omega)

theorem natToDigits_value (n : ℕ) : natOfDigits (natToDigits n) = n :=
  natToDigitsGo_value (n + 1) n (by omega)

/-- `transpile` renders the number node of a natural value as its plain
decimal numeral. -/
theorem transpile_natNum (n : ℕ) :
    transpile (Node.num (.num (n : ℚ))) = String.mk (natToDigits n) := by
  rw [transpile, jsValToString]
  rw [if_pos (by simp), if_neg (by simp)]
  congr 1


/-!
## A standard infix arithmetic evaluator (modelled from the spec)

Claim C2 compares the rendered output of the code generator against
"evaluation in any standard arithmetic evaluator".  The definitions below
are modelled from the spec, not from the repository: a character-level
lexer for infix arithmetic (`+ - * / ( )` and decimal numerals) and a
standard recursive-descent evaluator with the usual precedence
(`* /` over `+ -`) and left associativity, over the same JavaScript
number semantics the generated code targets.
-/

/-- Token of the infix expression language. -/
inductive ITok where
  | lpar : ITok
  | rpar : ITok
  | plus : ITok
  | minus : ITok
  | star : ITok
  | slash : ITok
  | lit : ℕ → ITok
deriving DecidableEq, Repr

/-- Emit the numeral accumulated so far, if any. -/
def flushAcc : Option ℕ → List ITok
  | none => []
  | some n => [ITok.lit n]

/-- Modelled from the spec: character-level lexer for infix arithmetic —
spaces separate tokens, digit runs form decimal numerals, the six symbol
characters are single tokens, anything else is a lexical error. -/
def lexInfixAux (acc : Option ℕ) : List Char → Option (List ITok)
  | [] => some (flushAcc acc)
  | c :: cs =>
    if c.isDigit then lexInfixAux (some (10 * acc.getD 0 + (c.toNat - 48))) cs
    else if c = ' ' then (lexInfixAux none cs).map (fun r => flushAcc acc ++ r)
    else if c = '(' then (lexInfixAux none cs).map (fun r => flushAcc acc ++ ITok.lpar :: r)
    else if c = ')' then (lexInfixAux none cs).map (fun r => flushAcc acc ++ ITok.rpar :: r)
    else if c = '+' then (lexInfixAux none cs).map (fun r => flushAcc acc ++ ITok.plus :: r)
    else if c = '-' then (lexInfixAux none cs).map (fun r => flushAcc acc ++ ITok.minus :: r)
    else if c = '*' then (lexInfixAux none cs).map (fun r => flushAcc acc ++ ITok.star :: r)
    else if c = '/' then (lexInfixAux none cs).map (fun r => flushAcc acc ++ ITok.slash :: r)
    else none

/-- Modelled from the spec: tokenize an infix arithmetic expression. -/
def lexInfix (s : String) : Option (List ITok) := lexInfixAux none s.data

/-- Character lists that do not begin with a digit (so a numeral ending
just before them is complete). -/
def noDigitHead (cs : List Char) : Prop :=
  ∀ c, cs.head? = some c → c.isDigit = false

theorem lexInfixAux_flush (acc : Option ℕ) (ys : List Char) (hys : noDigitHead ys) :
    lexInfixAux acc ys = (lexInfixAux none ys).map (fun r => flushAcc acc ++ r) := by
  cases ys with
  | nil => simp [lexInfixAux, flushAcc]
  | cons c cs =>
    have hc : c.isDigit = false := hys c rfl
    simp only [lexInfixAux, hc, Bool.false_eq_true, if_false]
    cases hx : lexInfixAux none cs with
    | none => split_ifs <;> simp [hx]
    | some r => split_ifs <;> simp [hx, flushAcc]

theorem lexInfixAux_append (xs ys : List Char) (hys : noDigitHead ys) :
    ∀ acc, lexInfixAux acc (xs ++ ys) =
      (lexInfixAux acc xs).bind (fun a => (lexInfixAux none ys).map (fun b => a ++ b)) := by
  induction xs with
  | nil =>
    intro acc
    simp only [List.nil_append, lexInfixAux]
    rw [lexInfixAux_flush acc ys hys]
    cases lexInfixAux none ys <;> simp
  | cons c cs ih =>
    intro acc
    simp only [List.cons_append, lexInfixAux]
    by_cases hc : c.isDigit = true
    · simp only [hc, if_true]
      exact ih _
    · simp only [hc, Bool.false_eq_true, if_false]
      split_ifs <;>
          (cases hx : lexInfixAux none cs <;> cases hy : lexInfixAux none ys <;>
            simp [ih, hx, hy, List.append_assoc])

theorem lexInfixAux_digits (ds : List Char) :
    ds ≠ [] → (∀ c ∈ ds, c.isDigit = true) →
    ∀ acc rest, lexInfixAux acc (ds ++ rest) =
      lexInfixAux (some (ds.foldl (fun n c => 10 * n + (c.toNat - 48)) (acc.getD 0))) rest := by
  induction ds with
  | nil => intro hne; cases hne rfl
  | cons c cs ih =>
    intro _ hd acc rest
    simp only [List.cons_append, lexInfixAux, hd c (by simp), if_true, List.append_eq]
    by_cases hcs : cs = []
    · subst hcs
      simp
    · rw [ih hcs (fun c' hc' => hd c' (by simp [hc'])) _ rest]
      congr 2

theorem lexInfix_numeral (n : ℕ) (rest : List Char) (hrest : noDigitHead rest) :
    lexInfixAux none (natToDigits n ++ rest) =
      (lexInfixAux none rest).map (fun r => ITok.lit n :: r) := by
  rw [lexInfixAux_digits (natToDigits n) (natToDigits_ne_nil n) (natToDigits_digits n) none rest]
  have hv : (natToDigits n).foldl (fun n c => 10 * n + (c.toNat - 48))
      ((none : Option ℕ).getD 0) = n := natToDigits_value n
  rw [hv, lexInfixAux_flush (some n) rest hrest]
  cases lexInfixAux none rest <;> simp [flushAcc]

/-!
## Standard recursive-descent infix evaluation (modelled from the spec)

`iExpr` evaluates additive chains of `iTerm`s (left-associative), `iTerm`
multiplicative chains of `iPrim`s (left-associative), `iPrim` a numeral or
a parenthesized expression — the textbook grammar

```
expr := term (('+' | '-') term)*
term := prim (('*' | '/') prim)*
prim := numeral | '(' expr ')'
```

evaluated over JavaScript number semantics (the transpiler's target).
Each function returns the value with the remaining tokens, packaged with
the length bound that justifies termination.
-/

mutual

/-- Primary: a numeral, or a parenthesized expression. -/
def iPrim (ts : List ITok) : Option {r : JSVal × List ITok // r.2.length < ts.length} :=
  match ts with
  | .lit n :: rest => some ⟨(.num (n : ℚ), rest), by simp⟩
  | .lpar :: rest =>
    match iExpr rest with
    | some ⟨(v, rest2), h2⟩ =>
      match hr : rest2 with
      | .rpar :: rest3 =>
        some ⟨(v, rest3), by subst hr; simp at h2 ⊢; omega⟩
      | _ => none
    | none => none
  | _ => none
termination_by (ts.length, 0)
decreasing_by
  all_goals
    first
    | (apply Prod.Lex.right; omega)
    | (apply Prod.Lex.left
       first
       | omega
       | (simp at *; omega)
       | simp)

/-- Multiplicative chain: a primary followed by `* prim` / `/ prim`
steps, folded left-associatively. -/
def iTerm (ts : List ITok) : Option {r : JSVal × List ITok // r.2.length < ts.length} :=
  match iPrim ts with
  | some ⟨(v, rest), h⟩ =>
    match iTermLoop v rest with
    | some ⟨(v2, rest2), h2⟩ => some ⟨(v2, rest2), lt_of_le_of_lt h2 h⟩
    | none => none
  | none => none
termination_by (ts.length, 1)
decreasing_by
  all_goals
    first
    | (apply Prod.Lex.right; omega)
    | (apply Prod.Lex.left
       first
       | omega
       | (simp at *; omega)
       | simp)

/-- The `(('*' | '/') prim)*` loop, accumulating into `acc`. -/
def iTermLoop (acc : JSVal) (ts : List ITok) :
    Option {r : JSVal × List ITok // r.2.length ≤ ts.length} :=
  match ts with
  | .star :: rest =>
    match iPrim rest with
    | some ⟨(v, rest2), h⟩ =>
      match iTermLoop (jmul acc v) rest2 with
      | some ⟨(v2, rest3), h3⟩ =>
        some ⟨(v2, rest3), le_trans h3 (Nat.le_succ_of_le (le_of_lt h))⟩
      | none => none
    | none => none
  | .slash :: rest =>
    match iPrim rest with
    | some ⟨(v, rest2), h⟩ =>
      match iTermLoop (jdiv acc v) rest2 with
      | some ⟨(v2, rest3), h3⟩ =>
        some ⟨(v2, rest3), le_trans h3 (Nat.le_succ_of_le (le_of_lt h))⟩
      | none => none
    | none => none
  | other => some ⟨(acc, other), le_refl _⟩
termination_by (ts.length, 0)
decreasing_by
  all_goals
    first
    | (apply Prod.Lex.right; omega)
    | (apply Prod.Lex.left
       first
       | omega
       | (simp at *; omega)
       | simp)

/-- Additive chain: a term followed by `+ term` / `- term` steps, folded
left-associatively. -/
def iExpr (ts : List ITok) : Option {r : JSVal × List ITok // r.2.length < ts.length} :=
  match iTerm ts with
  | some ⟨(v, rest), h⟩ =>
    match iExprLoop v rest with
    | some ⟨(v2, rest2), h2⟩ => some ⟨(v2, rest2), lt_of_le_of_lt h2 h⟩
    | none => none
  | none => none
termination_by (ts.length, 2)
decreasing_by
  all_goals
    first
    | (apply Prod.Lex.right; omega)
    | (apply Prod.Lex.left
       first
       | omega
       | (simp at *; omega)
       | simp)

/-- The `(('+' | '-') term)*` loop, accumulating into `acc`. -/
def iExprLoop (acc : JSVal) (ts : List ITok) :
    Option {r : JSVal × List ITok // r.2.length ≤ ts.length} :=
  match ts with
  | .plus :: rest =>
    match iTerm rest with
    | some ⟨(v, rest2), h⟩ =>
      match iExprLoop (jadd acc v) rest2 with
      | some ⟨(v2, rest3), h3⟩ =>
        some ⟨(v2, rest3), le_trans h3 (Nat.le_succ_of_le (le_of_lt h))⟩
      | none => none
    | none => none
  | .minus :: rest =>
    match iTerm rest with
    | some ⟨(v, rest2), h⟩ =>
      match iExprLoop (jsub acc v) rest2 with
      | some ⟨(v2, rest3), h3⟩ =>
        some ⟨(v2, rest3), le_trans h3 (Nat.le_succ_of_le (le_of_lt h))⟩
      | none => none
    | none => none
  | other => some ⟨(acc, other), le_refl _⟩
termination_by (ts.length, 0)
decreasing_by
  all_goals
    first
    | (apply Prod.Lex.right; omega)
    | (apply Prod.Lex.left
       first
       | omega
       | (simp at *; omega)
       | simp)

end

/-- `iPrim` without the termination bound. -/
def iPrimR (ts : List ITok) : Option (JSVal × List ITok) := (iPrim ts).map Subtype.val

/-- `iTerm` without the termination bound. -/
def iTermR (ts : List ITok) : Option (JSVal × List ITok) := (iTerm ts).map Subtype.val

/-- `iTermLoop` without the termination bound. -/
def iTermLoopR (acc : JSVal) (ts : List ITok) : Option (JSVal × List ITok) :=
  (iTermLoop acc ts).map Subtype.val

/-- `iExpr` without the termination bound. -/
def iExprR (ts : List ITok) : Option (JSVal × List ITok) := (iExpr ts).map Subtype.val

/-- `iExprLoop` without the termination bound. -/
def iExprLoopR (acc : JSVal) (ts : List ITok) : Option (JSVal × List ITok) :=
  (iExprLoop acc ts).map Subtype.val

/-- Modelled from the spec: evaluate a token sequence as one complete
infix expression (all tokens must be consumed). -/
def evalInfixToks (ts : List ITok) : Option JSVal :=
  match iExprR ts with
  | some (v, []) => some v
  | _ => none

/-- Modelled from the spec: standard arithmetic evaluation of an infix
expression string — lex it, then evaluate the whole token sequence. -/
def standardEval (s : String) : Option JSVal :=
  (lexInfix s).bind evalInfixToks

/-- Does the token sequence begin with `*` or `/`? -/
def isMulHead : List ITok → Bool
  | .star :: _ => true
  | .slash :: _ => true
  | _ => false

/-- Does the token sequence begin with `+` or `-`? -/
def isAddHead : List ITok → Bool
  | .plus :: _ => true
  | .minus :: _ => true
  | _ => false

theorem iPrimR_lit (n : ℕ) (rest : List ITok) :
    iPrimR (.lit n :: rest) = some (.num (n : ℚ), rest) := by
  rw [iPrimR, iPrim.eq_def]
  rfl

theorem iPrimR_lpar {ts : List ITok} {v : JSVal} {rest3 : List ITok}
    (h : iExprR ts = some (v, .rpar :: rest3)) :
    iPrimR (.lpar :: ts) = some (v, rest3) := by
  rw [iExprR] at h
  cases hi : iExpr ts with
  | none => rw [hi] at h; cases h
  | some sub =>
    obtain ⟨⟨v', r'⟩, hp⟩ := sub
    rw [hi] at h
    simp at h
    obtain ⟨rfl, rfl⟩ := h
    rw [iPrimR, iPrim.eq_def]
    simp [hi]

theorem iTermLoopR_stop (acc : JSVal) (ts : List ITok) (h : isMulHead ts = false) :
    iTermLoopR acc ts = some (acc, ts) := by
  rw [iTermLoopR, iTermLoop.eq_def]
  cases ts with
  | nil => rfl
  | cons t rest => cases t <;> simp_all [isMulHead]

theorem iTermLoopR_star {rest rest2 rest3 : List ITok} {v w : JSVal} (acc : JSVal)
    (h1 : iPrimR rest = some (v, rest2))
    (h2 : iTermLoopR (jmul acc v) rest2 = some (w, rest3)) :
    iTermLoopR acc (.star :: rest) = some (w, rest3) := by
  rw [iPrimR] at h1
  rw [iTermLoopR] at h2
  cases hp : iPrim rest with
  | none => rw [hp] at h1; cases h1
  | some sub =>
    obtain ⟨⟨v', r'⟩, hpf⟩ := sub
    rw [hp] at h1
    simp at h1
    obtain ⟨rfl, rfl⟩ := h1
    cases hl : iTermLoop (jmul acc v') r' with
    | none => rw [hl] at h2; cases h2
    | some sub2 =>
      obtain ⟨⟨w', r3'⟩, hpf2⟩ := sub2
      rw [hl] at h2
      simp at h2
      obtain ⟨rfl, rfl⟩ := h2
      rw [iTermLoopR, iTermLoop.eq_def]
      simp [hp, hl]

theorem iTermLoopR_slash {rest rest2 rest3 : List ITok} {v w : JSVal} (acc : JSVal)
    (h1 : iPrimR rest = some (v, rest2))
    (h2 : iTermLoopR (jdiv acc v) rest2 = some (w, rest3)) :
    iTermLoopR acc (.slash :: rest) = some (w, rest3) := by
  rw [iPrimR] at h1
  rw [iTermLoopR] at h2
  cases hp : iPrim rest with
  | none => rw [hp] at h1; cases h1
  | some sub =>
    obtain ⟨⟨v', r'⟩, hpf⟩ := sub
    rw [hp] at h1
    simp at h1
    obtain ⟨rfl, rfl⟩ := h1
    cases hl : iTermLoop (jdiv acc v') r' with
    | none => rw [hl] at h2; cases h2
    | some sub2 =>
      obtain ⟨⟨w', r3'⟩, hpf2⟩ := sub2
      rw [hl] at h2
      simp at h2
      obtain ⟨rfl, rfl⟩ := h2
      rw [iTermLoopR, iTermLoop.eq_def]
      simp [hp, hl]

theorem iTermR_run {ts rest rest2 : List ITok} {v w : JSVal}
    (h1 : iPrimR ts = some (v, rest))
    (h2 : iTermLoopR v rest = some (w, rest2)) :
    iTermR ts = some (w, rest2) := by
  rw [iPrimR] at h1
  rw [iTermLoopR] at h2
  cases hp : iPrim ts with
  | none => rw [hp] at h1; cases h1
  | some sub =>
    obtain ⟨⟨v', r'⟩, hpf⟩ := sub
    rw [hp] at h1
    simp at h1
    obtain ⟨rfl, rfl⟩ := h1
    cases hl : iTermLoop v' r' with
    | none => rw [hl] at h2; cases h2
    | some sub2 =>
      obtain ⟨⟨w', r2'⟩, hpf2⟩ := sub2
      rw [hl] at h2
      simp at h2
      obtain ⟨rfl, rfl⟩ := h2
      rw [iTermR, iTerm.eq_def]
      simp [hp, hl]

theorem iExprLoopR_stop (acc : JSVal) (ts : List ITok) (h : isAddHead ts = false) :
    iExprLoopR acc ts = some (acc, ts) := by
  rw [iExprLoopR, iExprLoop.eq_def]
  cases ts with
  | nil => rfl
  | cons t rest => cases t <;> simp_all [isAddHead]

theorem iExprLoopR_plus {rest rest2 rest3 : List ITok} {v w : JSVal} (acc : JSVal)
    (h1 : iTermR rest = some (v, rest2))
    (h2 : iExprLoopR (jadd acc v) rest2 = some (w, rest3)) :
    iExprLoopR acc (.plus :: rest) = some (w, rest3) := by
  rw [iTermR] at h1
  rw [iExprLoopR] at h2
  cases hp : iTerm rest with
  | none => rw [hp] at h1; cases h1
  | some sub =>
    obtain ⟨⟨v', r'⟩, hpf⟩ := sub
    rw [hp] at h1
    simp at h1
    obtain ⟨rfl, rfl⟩ := h1
    cases hl : iExprLoop (jadd acc v') r' with
    | none => rw [hl] at h2; cases h2
    | some sub2 =>
      obtain ⟨⟨w', r3'⟩, hpf2⟩ := sub2
      rw [hl] at h2
      simp at h2
      obtain ⟨rfl, rfl⟩ := h2
      rw [iExprLoopR, iExprLoop.eq_def]
      simp [hp, hl]

theorem iExprLoopR_minus {rest rest2 rest3 : List ITok} {v w : JSVal} (acc : JSVal)
    (h1 : iTermR rest = some (v, rest2))
    (h2 : iExprLoopR (jsub acc v) rest2 = some (w, rest3)) :
    iExprLoopR acc (.minus :: rest) = some (w, rest3) := by
  rw [iTermR] at h1
  rw [iExprLoopR] at h2
  cases hp : iTerm rest with
  | none => rw [hp] at h1; cases h1
  | some sub =>
    obtain ⟨⟨v', r'⟩, hpf⟩ := sub
    rw [hp] at h1
    simp at h1
    obtain ⟨rfl, rfl⟩ := h1
    cases hl : iExprLoop (jsub acc v') r' with
    | none => rw [hl] at h2; cases h2
    | some sub2 =>
      obtain ⟨⟨w', r3'⟩, hpf2⟩ := sub2
      rw [hl] at h2
      simp at h2
      obtain ⟨rfl, rfl⟩ := h2
      rw [iExprLoopR, iExprLoop.eq_def]
      simp [hp, hl]

theorem iExprR_run {ts rest rest2 : List ITok} {v w : JSVal}
    (h1 : iTermR ts = some (v, rest))
    (h2 : iExprLoopR v rest = some (w, rest2)) :
    iExprR ts = some (w, rest2) := by
  rw [iTermR] at h1
  rw [iExprLoopR] at h2
  cases hp : iTerm ts with
  | none => rw [hp] at h1; cases h1
  | some sub =>
    obtain ⟨⟨v', r'⟩, hpf⟩ := sub
    rw [hp] at h1
    simp at h1
    obtain ⟨rfl, rfl⟩ := h1
    cases hl : iExprLoop v' r' with
    | none => rw [hl] at h2; cases h2
    | some sub2 =>
      obtain ⟨⟨w', r2'⟩, hpf2⟩ := sub2
      rw [hl] at h2
      simp at h2
      obtain ⟨rfl, rfl⟩ := h2
      rw [iExprR, iExpr.eq_def]
      simp [hp, hl]

theorem evalInfixToks_of {ts : List ITok} {v : JSVal}
    (h : iExprR ts = some (v, [])) : evalInfixToks ts = some v := by
  rw [evalInfixToks, h]

/-!
## Token rendering of a tree, and the correspondence proofs for C2
-/

/-- The numeral a number node renders as (meaningful on parser-produced
values, which are integers). -/
def jsNumLit : JSVal → ℕ
  | .num q => q.num.natAbs
  | _ => 0

/-- The infix token of each operator word. -/
def opITok : Option String → ITok
  | some "sum" => .plus
  | some "mul" => .star
  | some "sub" => .minus
  | some "div" => .slash
  | _ => .plus

/-- Chain of part token lists joined by a separator token. -/
def chainToks (sep : ITok) : List (List ITok) → List ITok
  | [] => []
  | p :: ps => p ++ (ps.map (fun q => sep :: q)).flatten

mutual

/-- The token sequence the rendered form of a tree lexes to. -/
def itoks : Node → List ITok
  | .num v => [.lit (jsNumLit v)]
  | .op v es => .lpar :: (chainToks (opITok v) (itoksArgs es) ++ [.rpar])

/-- Token sequences of the children. -/
def itoksArgs : List Node → List (List ITok)
  | [] => []
  | e :: es => itoks e :: itoksArgs es

end

theorem jsNumLit_natCast (n : ℕ) : jsNumLit (.num (n : ℚ)) = n := by
  simp [jsNumLit]

theorem chainToks_cons₂ (sep : ITok) (p q : List ITok) (qs : List (List ITok)) :
    chainToks sep (p :: q :: qs) = p ++ sep :: chainToks sep (q :: qs) := by
  simp [chainToks]

theorem jadd_zero (v : JSVal) : jadd (.num 0) v = v := by
  cases v <;> simp [jadd]

theorem jmul_one (v : JSVal) : jmul (.num 1) v = v := by
  cases v with
  | nan => rfl
  | inf s =>
    have h : decide ((1 : ℚ) < 0) = false := by norm_num
    simp [jmul, h]
  | num q => simp [jmul]

/-- The rendered form of `t` lexes to `itoks t`, composably with any
non-digit-headed continuation. -/
def LexesTo (t : Node) : Prop :=
  ∀ rest, noDigitHead rest →
    lexInfixAux none ((transpile t).data ++ rest) =
      (lexInfixAux none rest).map (fun r => itoks t ++ r)

theorem noDigitHead_append_left {cs : List Char} (xs : List Char)
    (hne : cs ≠ []) (h : noDigitHead cs) : noDigitHead (cs ++ xs) := by
  intro c hc
  cases cs with
  | nil => exact absurd rfl hne
  | cons c0 cs0 =>
    exact h c (by simpa using hc)

/-- Separator-aware chain lemma: the join of the rendered children lexes
to the separator-joined chain of their token lists. -/
theorem chainLex (sepStr : String) (sepTok : ITok)
    (hsep : ∀ cs, lexInfixAux none (sepStr.data ++ cs) =
      (lexInfixAux none cs).map (fun r => sepTok :: r))
    (hsd : sepStr.data ≠ []) (hsnd : noDigitHead sepStr.data) :
    ∀ es, (∀ e ∈ es, LexesTo e) → es ≠ [] →
    ∀ rest, noDigitHead rest →
    lexInfixAux none ((joinSep sepStr (transpileArgs es)).data ++ rest) =
      (lexInfixAux none rest).map (fun r => chainToks sepTok (itoksArgs es) ++ r) := by
  intro es
  induction es with
  | nil => intro _ hne; exact absurd rfl hne
  | cons e es' ih =>
    intro hall _ rest hrest
    cases es' with
    | nil =>
      rw [show transpileArgs [e] = [transpile e] from rfl,
        show joinSep sepStr [transpile e] = transpile e from rfl]
      rw [hall e (by simp) rest hrest]
      cases lexInfixAux none rest <;> simp [itoksArgs, chainToks]
    | cons e2 es'' =>
      rw [show transpileArgs (e :: e2 :: es'') =
        transpile e :: transpileArgs (e2 :: es'') from rfl]
      rw [show joinSep sepStr (transpile e :: transpileArgs (e2 :: es'')) =
        transpile e ++ sepStr ++ joinSep sepStr (transpileArgs (e2 :: es''))
        from rfl]
      rw [String.data_append, String.data_append]
      rw [List.append_assoc, List.append_assoc]
      rw [hall e (by simp) _
        (noDigitHead_append_left _ hsd hsnd)]
      rw [hsep]
      rw [ih (fun e' he' => hall e' (by simp [he'])) (by simp) rest hrest]
      cases lexInfixAux none rest <;>
        simp [itoksArgs, chainToks_cons₂, List.append_assoc]

/-- Every `Good` tree lexes to its token sequence. -/
theorem transpile_lexes {t : Node} (h : Good t) : LexesTo t := by
  induction h with
  | num n =>
    intro rest hrest
    rw [transpile_natNum n]
    rw [show (String.mk (natToDigits n)).data = natToDigits n from rfl]
    rw [lexInfix_numeral n rest hrest]
    cases lexInfixAux none rest <;> simp [itoks, jsNumLit_natCast]
  | op w es hw hne hall ih =>
    intro rest hrest
    rw [show transpile (.op (some w) es) =
      "(" ++ joinSep (" " ++ opMapJS (some w) ++ " ") (transpileArgs es) ++ ")"
      from rfl]
    rw [String.data_append, String.data_append]
    rw [show ("(" : String).data = ['('] from rfl,
      show (")" : String).data = [')'] from rfl]
    rw [List.append_assoc]
    rw [show (['('] : List Char) ++
      (joinSep (" " ++ opMapJS (some w) ++ " ") (transpileArgs es)).data ++ ([')'] ++ rest) =
      '(' :: ((joinSep (" " ++ opMapJS (some w) ++ " ") (transpileArgs es)).data ++
        (')' :: rest)) from by simp]
    rw [show lexInfixAux none ('(' :: ((joinSep (" " ++ opMapJS (some w) ++ " ")
        (transpileArgs es)).data ++ (')' :: rest))) =
      (lexInfixAux none ((joinSep (" " ++ opMapJS (some w) ++ " ")
        (transpileArgs es)).data ++ (')' :: rest))).map (fun r => ITok.lpar :: r)
      from rfl]
    have hrpar : ∀ cs, lexInfixAux none (')' :: cs) =
        (lexInfixAux none cs).map (fun r => ITok.rpar :: r) := fun _ => rfl
    have hsep : ∀ cs, lexInfixAux none ((" " ++ opMapJS (some w) ++ " ").data ++ cs) =
        (lexInfixAux none cs).map (fun r => opITok (some w) :: r) := by
      intro cs
      fin_cases hw <;>
        cases hl : lexInfixAux none cs <;>
          simp +decide [lexInfixAux, hl, flushAcc, opMapJS, opITok]
    rw [chainLex (" " ++ opMapJS (some w) ++ " ") (opITok (some w)) hsep
      (by fin_cases hw <;> decide)
      (by fin_cases hw <;> (intro c hc; cases hc; decide))
      es ih hne (')' :: rest) (by intro c hc; cases hc; decide)]
    rw [hrpar rest]
    cases lexInfixAux none rest <;> simp [itoks, List.append_assoc]

/-- The token list parses as a primary with value `v`, leaving any
continuation untouched. -/
def PrimParses (p : List ITok) (v : JSVal) : Prop :=
  ∀ r, iPrimR (p ++ r) = some (v, r)

/-- The token list parses as a term with value `v` whenever the
continuation does not begin with `*` or `/`. -/
def TermParses (p : List ITok) (v : JSVal) : Prop :=
  ∀ r, isMulHead r = false → iTermR (p ++ r) = some (v, r)

theorem TermParses.of_prim {p : List ITok} {v : JSVal} (h : PrimParses p v) :
    TermParses p v :=
  fun r hr => iTermR_run (h r) (iTermLoopR_stop v r hr)

theorem isMulHead_chain {sep : ITok} (hs : sep = ITok.plus ∨ sep = ITok.minus)
    (ps : List (List ITok)) {rest : List ITok} (hr : isMulHead rest = false) :
    isMulHead ((ps.map (fun q => sep :: q)).flatten ++ rest) = false := by
  cases ps with
  | nil => simpa using hr
  | cons q qs => rcases hs with rfl | rfl <;> rfl

theorem iTermLoop_chain {sep : ITok} {f : JSVal → JSVal → JSVal}
    (hs : (sep = ITok.star ∧ f = jmul) ∨ (sep = ITok.slash ∧ f = jdiv)) :
    ∀ {parts : List (List ITok)} {vs : List JSVal},
    List.Forall₂ PrimParses parts vs →
    ∀ acc rest, isMulHead rest = false →
    iTermLoopR acc ((parts.map (fun q => sep :: q)).flatten ++ rest) =
      some (vs.foldl f acc, rest) := by
  intro parts vs hfa
  induction hfa with
  | nil =>
    intro acc rest hr
    simpa using iTermLoopR_stop acc rest hr
  | @cons p v parts' vs' hpv hfa' ih =>
    intro acc rest hr
    have hshape : (((p :: parts').map (fun q => sep :: q)).flatten ++ rest) =
        sep :: (p ++ ((parts'.map (fun q => sep :: q)).flatten ++ rest)) := by
      simp
    rw [hshape]
    rcases hs with ⟨rfl, rfl⟩ | ⟨rfl, rfl⟩
    · rw [iTermLoopR_star acc (hpv _) (ih (jmul acc v) rest hr)]
      simp
    · rw [iTermLoopR_slash acc (hpv _) (ih (jdiv acc v) rest hr)]
      simp

theorem iExprLoop_chain {sep : ITok} {f : JSVal → JSVal → JSVal}
    (hs : (sep = ITok.plus ∧ f = jadd) ∨ (sep = ITok.minus ∧ f = jsub)) :
    ∀ {parts : List (List ITok)} {vs : List JSVal},
    List.Forall₂ TermParses parts vs →
    ∀ acc rest, isAddHead rest = false → isMulHead rest = false →
    iExprLoopR acc ((parts.map (fun q => sep :: q)).flatten ++ rest) =
      some (vs.foldl f acc, rest) := by
  intro parts vs hfa
  induction hfa with
  | nil =>
    intro acc rest hra hrm
    simpa using iExprLoopR_stop acc rest hra
  | @cons p v parts' vs' hpv hfa' ih =>
    intro acc rest hra hrm
    have hshape : (((p :: parts').map (fun q => sep :: q)).flatten ++ rest) =
        sep :: (p ++ ((parts'.map (fun q => sep :: q)).flatten ++ rest)) := by
      simp
    rw [hshape]
    have hmh : isMulHead ((parts'.map (fun q => sep :: q)).flatten ++ rest) = false :=
      isMulHead_chain (hs.imp And.left And.left) parts' hrm
    rcases hs with ⟨rfl, rfl⟩ | ⟨rfl, rfl⟩
    · rw [iExprLoopR_plus acc (hpv _ hmh) (ih (jadd acc v) rest hra hrm)]
      simp
    · rw [iExprLoopR_minus acc (hpv _ hmh) (ih (jsub acc v) rest hra hrm)]
      simp

theorem args_build : ∀ es : List Node,
    (∀ e ∈ es, ∃ v, tinyEval e = some v ∧ PrimParses (itoks e) v) →
    ∃ vs, tinyEvalArgs es = some vs ∧ List.Forall₂ PrimParses (itoksArgs es) vs := by
  intro es
  induction es with
  | nil => exact fun _ => ⟨[], rfl, List.Forall₂.nil⟩
  | cons e es' ih =>
    intro h
    obtain ⟨v, hv, hp⟩ := h e (by simp)
    obtain ⟨vs, hvs, hfa⟩ := ih (fun e' he' => h e' (by simp [he']))
    refine ⟨v :: vs, ?_, List.Forall₂.cons hp hfa⟩
    rw [tinyEvalArgs, hv, hvs]

/-- Every `Good` tree evaluates under the code's evaluator to the very
value its rendered form has under the standard infix evaluator, stated at
the primary level so it composes through parentheses. -/
theorem good_parses {t : Node} (h : Good t) :
    ∃ v, tinyEval t = some v ∧ PrimParses (itoks t) v := by
  induction h with
  | num n =>
    refine ⟨.num (n : ℚ), rfl, ?_⟩
    intro r
    rw [show itoks (.num (.num (n : ℚ))) = [ITok.lit n] from by
      simp [itoks, jsNumLit_natCast]]
    exact iPrimR_lit n r
  | op w es hw hne hall ih =>
    obtain ⟨vs, hargs, hfa⟩ := args_build es ih
    cases es with
    | nil => exact absurd rfl hne
    | cons e es0 =>
      have hfa' : List.Forall₂ PrimParses (itoks e :: itoksArgs es0) vs := by
        simpa [itoksArgs] using hfa
      obtain ⟨v1, vs', rfl, hp1, hrest⟩ :
          ∃ v1 vs', vs = v1 :: vs' ∧ PrimParses (itoks e) v1 ∧
            List.Forall₂ PrimParses (itoksArgs es0) vs' := by
        cases hfa' with
        | cons h1 h2 => exact ⟨_, _, rfl, h1, h2⟩
      have htermrest := List.Forall₂.imp
        (fun _ _ hp => TermParses.of_prim hp) hrest
      fin_cases hw
      · -- sum
        refine ⟨vs'.foldl jadd v1, ?_, ?_⟩
        · rw [tinyEval, hargs]
          simp [jadd_zero]
        · intro r
          have hsh : itoks (Node.op (some "sum") (e :: es0)) ++ r =
              ITok.lpar :: (itoks e ++
                (((itoksArgs es0).map (fun q => ITok.plus :: q)).flatten ++
                  (ITok.rpar :: r))) := by
            simp [itoks, itoksArgs, opITok, chainToks, List.append_assoc]
          rw [hsh]
          exact iPrimR_lpar (iExprR_run
            (TermParses.of_prim hp1 _ (isMulHead_chain (Or.inl rfl) _ rfl))
            (iExprLoop_chain (Or.inl ⟨rfl, rfl⟩) htermrest v1 (.rpar :: r) rfl rfl))
      · -- sub
        refine ⟨vs'.foldl jsub v1, ?_, ?_⟩
        · rw [tinyEval, hargs]
          rfl
        · intro r
          have hsh : itoks (Node.op (some "sub") (e :: es0)) ++ r =
              ITok.lpar :: (itoks e ++
                (((itoksArgs es0).map (fun q => ITok.minus :: q)).flatten ++
                  (ITok.rpar :: r))) := by
            simp [itoks, itoksArgs, opITok, chainToks, List.append_assoc]
          rw [hsh]
          exact iPrimR_lpar (iExprR_run
            (TermParses.of_prim hp1 _ (isMulHead_chain (Or.inr rfl) _ rfl))
            (iExprLoop_chain (Or.inr ⟨rfl, rfl⟩) htermrest v1 (.rpar :: r) rfl rfl))
      · -- div
        refine ⟨vs'.foldl jdiv v1, ?_, ?_⟩
        · rw [tinyEval, hargs]
          rfl
        · intro r
          have hsh : itoks (Node.op (some "div") (e :: es0)) ++ r =
              ITok.lpar :: (itoks e ++
                (((itoksArgs es0).map (fun q => ITok.slash :: q)).flatten ++
                  (ITok.rpar :: r))) := by
            simp [itoks, itoksArgs, opITok, chainToks, List.append_assoc]
          rw [hsh]
          exact iPrimR_lpar (iExprR_run
            (iTermR_run (hp1 _)
              (iTermLoop_chain (Or.inr ⟨rfl, rfl⟩) hrest v1 (.rpar :: r) rfl))
            (iExprLoopR_stop _ _ rfl))
      · -- mul
        refine ⟨vs'.foldl jmul v1, ?_, ?_⟩
        · rw [tinyEval, hargs]
          simp [jmul_one]
        · intro r
          have hsh : itoks (Node.op (some "mul") (e :: es0)) ++ r =
              ITok.lpar :: (itoks e ++
                (((itoksArgs es0).map (fun q => ITok.star :: q)).flatten ++
                  (ITok.rpar :: r))) := by
            simp [itoks, itoksArgs, opITok, chainToks, List.append_assoc]
          rw [hsh]
          exact iPrimR_lpar (iExprR_run
            (iTermR_run (hp1 _)
              (iTermLoop_chain (Or.inl ⟨rfl, rfl⟩) hrest v1 (.rpar :: r) rfl))
            (iExprLoopR_stop _ _ rfl))

/-- Bridge: for every `Good` tree the rendered string evaluates, under the
standard infix evaluator, to exactly the evaluator's result. -/
theorem transpile_standardEval {t : Node} (h : Good t) :
    ∃ v, tinyEval t = some v ∧ standardEval (transpile t) = some v := by
  obtain ⟨v, hev, hpp⟩ := good_parses h
  have hlx : lexInfix (transpile t) = some (itoks t) := by
    have hl := transpile_lexes h [] (fun c hc => by cases hc)
    rw [List.append_nil] at hl
    rw [lexInfix, hl]
    simp [lexInfixAux, flushAcc]
  have hex : iExprR (itoks t) = some (v, []) := by
    have hp : iPrimR (itoks t ++ []) = some (v, []) := hpp []
    rw [List.append_nil] at hp
    exact iExprR_run (iTermR_run hp (iTermLoopR_stop v [] rfl))
      (iExprLoopR_stop v [] rfl)
  refine ⟨v, hev, ?_⟩
  rw [standardEval, hlx]
  simpa using evalInfixToks_of hex

/-- C2: for every valid program `p` (well-formed prefix expression, every
operator receiving at least one operand), the transpiled string
`render(parse(tokenize(p)))` is a well-formed, fully parenthesized infix
expression that lexes and evaluates under a standard arithmetic evaluator
(precedence and left associativity, JavaScript number semantics — the
transpiler's target) to exactly `evaluate(parse(tokenize(p)))`. -/
theorem claim_c2_transpile_eval (p : String) (h : PExpr (lexJS p)) :
    ∃ v, tinyEval (parse (lexJS p)) = some v ∧
      standardEval (transpile (parse (lexJS p))) = some v :=
  transpile_standardEval (pexpr_good h)

/-- Witness for C2 on the program `"sum 1 2"`. -/
theorem claim_c2_transpile_eval_witness :
    PExpr (lexJS "sum 1 2") ∧
    ∃ v, tinyEval (parse (lexJS "sum 1 2")) = some v ∧
      standardEval (transpile (parse (lexJS "sum 1 2"))) = some v := by
  have hp : PExpr (lexJS "sum 1 2") := by
    rw [show lexJS "sum 1 2" = ["sum", "1", "2"] from by decide]
    have h1 : PExpr ["1"] := PExpr.num "1" (by decide) (by decide)
    have h2 : PExpr ["2"] := PExpr.num "2" (by decide) (by decide)
    exact PExpr.op "sum" [["1"], ["2"]] (by decide) (by simp)
      (fun us hus => by
        rcases List.mem_cons.mp hus with rfl | hus2
        · exact h1
        · rcases List.mem_singleton.mp hus2 with rfl
          exact h2)
  exact ⟨hp, claim_c2_transpile_eval "sum 1 2" hp⟩
